/-
  Verification of the Zinc constraint-emitting virtual machine.

  The development shallowly embeds the value semantics and the emitted
  R1CS constraints of the gadget library in
  zinc/src/primitive/constrained/mod.rs, the standard-library calls of
  zinc-vm (schnorr, MTreeMap contains, from_bits_signed) and the
  bytecode decoder of zrust-bytecode.  Field elements are ZMod p; the
  capacity of the field (floor of log2 p) is carried as an explicit
  parameter C.
-/
import Mathlib

namespace Zinc

/-! ### Bit decomposition and packing -/

/-- Little-endian decomposition of a natural number into k bits, as the
bit-decomposition gadgets (into_bits_le_fixed / into_bits_le) produce it. -/
def bitsOf (i : ℕ) : ℕ → List ℕ
  | 0 => []
  | k + 1 => i % 2 :: bitsOf (i / 2) k

/-- Packing of a little-endian bit list back into a natural number, the
value computed by pack_bits_to_element. -/
def packBits (l : List ℕ) : ℕ := l.foldr (fun b acc => b + 2 * acc) 0

theorem packBits_nil : packBits [] = 0 := rfl

theorem packBits_cons (b : ℕ) (l : List ℕ) :
    packBits (b :: l) = b + 2 * packBits l := rfl

theorem bitsOf_length (i k : ℕ) : (bitsOf i k).length = k := by
  induction k generalizing i with
  | zero => rfl
  | succ k ih => simp [bitsOf, ih]

theorem packBits_bitsOf (i k : ℕ) : packBits (bitsOf i k) = i % 2 ^ k := by
  induction k generalizing i with
  | zero => simp [bitsOf, packBits, Nat.mod_one]
  | succ k ih =>
    rw [bitsOf, packBits_cons, ih, pow_succ', Nat.mod_mul]

theorem packBits_concat (l : List ℕ) (x : ℕ) :
    packBits (l ++ [x]) = packBits l + x * 2 ^ l.length := by
  induction l with
  | nil => simp [packBits]
  | cons b l ih =>
    rw [List.cons_append, packBits_cons, packBits_cons, ih]
    rw [List.length_cons, pow_succ]
    ring

theorem getD_concat_length (l : List α) (x d : α) :
    (l ++ [x]).getD l.length d = x := by
  induction l with
  | nil => rfl
  | cons b l ih => simp only [List.cons_append, List.length_cons, List.getD_cons_succ]; exact ih

/-! ### Recursive conditional selection (recursive_select) -/

/-- One halving level of recursive_select: pairs (a[2i], a[2i+1]) are
reduced by the condition bit and, when the length is odd, the tail
element is carried forward unchanged. -/
def selectLevel (bit : ℕ) : List α → List α
  | [] => []
  | [x] => [x]
  | x :: y :: rest => (if bit ≠ 0 then y else x) :: selectLevel bit rest

/-- The recursive 2-to-1 selection of
ConstrainingFrOperations::recursive_select, at the level of values.  The
bit list comes first (the arguments are flipped relative to the source)
so that the recursion is structural on the bits. A missing bit while
more than one element remains models the "recursion error" panic. -/
def recursive_select : List ℕ → List α → Option α
  | _, [x] => some x
  | [], _ => none
  | bit :: rest, arr => recursive_select rest (selectLevel bit arr)

theorem selectLevel_length (b : ℕ) :
    ∀ l : List α, (selectLevel b l).length = (l.length + 1) / 2
  | [] => by simp [selectLevel]
  | [_] => by simp [selectLevel]
  | x :: y :: rest => by
    show (selectLevel b rest).length + 1 = _
    rw [selectLevel_length b rest]
    simp only [List.length_cons]
    omega

theorem selectLevel_get? (b : ℕ) :
    ∀ (l : List α) (j : ℕ),
      (selectLevel b l).get? j =
        if 2 * j + 1 < l.length then
          (if b ≠ 0 then l.get? (2 * j + 1) else l.get? (2 * j))
        else if 2 * j < l.length then l.get? (2 * j) else none
  | [], j => by simp [selectLevel]
  | [x], j => by
    match j with
    | 0 => simp [selectLevel]
    | j + 1 => simp [selectLevel]
  | x :: y :: rest, j => by
    match j with
    | 0 =>
      show some (if b ≠ 0 then y else x) = _
      by_cases hb : b ≠ 0 <;> simp [hb, List.length_cons]
    | j + 1 =>
      show (selectLevel b rest).get? j = _
      rw [selectLevel_get? b rest j]
      have e1 : 2 * (j + 1) + 1 = 2 * j + 1 + 1 + 1 := by ring
      have e2 : 2 * (j + 1) = 2 * j + 1 + 1 := by ring
      rw [e1, e2]
      simp only [List.get?_cons_succ, List.length_cons]
      by_cases h1 : 2 * j + 1 < rest.length
      · rw [if_pos h1, if_pos (show 2 * j + 1 + 1 + 1 < rest.length + 1 + 1 by omega)]
      · rw [if_neg h1, if_neg (show ¬2 * j + 1 + 1 + 1 < rest.length + 1 + 1 by omega)]
        by_cases h2 : 2 * j < rest.length
        · rw [if_pos h2, if_pos (show 2 * j + 1 + 1 < rest.length + 1 + 1 by omega)]
        · rw [if_neg h2, if_neg (show ¬2 * j + 1 + 1 < rest.length + 1 + 1 by omega)]

theorem recursive_select_step (b : ℕ) (bits : List ℕ) (x y : α) (rest : List α) :
    recursive_select (b :: bits) (x :: y :: rest) =
      recursive_select bits (selectLevel b (x :: y :: rest)) := rfl

theorem recursive_select_singleton (bits : List ℕ) (x : α) :
    recursive_select bits [x] = some x := by
  cases bits <;> rfl

/-- Selecting with the little-endian bits of an in-range index recovers
exactly that element of the array. -/
theorem recursive_select_bitsOf :
    ∀ (h : ℕ) (arr : List α) (i : ℕ), arr.length ≤ 2 ^ h → i < arr.length →
      recursive_select (bitsOf i h) arr = arr.get? i := by
  intro h
  induction h with
  | zero =>
    intro arr i hlen hi
    match arr with
    | [] => simp at hi
    | [x] =>
      have : i = 0 := by simp only [List.length_cons, List.length_nil] at hi; omega
      subst this
      simp [bitsOf, recursive_select]
    | x :: y :: rest => simp at hlen
  | succ h ih =>
    intro arr i hlen hi
    match arr with
    | [] => simp at hi
    | [x] =>
      have : i = 0 := by simp only [List.length_cons, List.length_nil] at hi; omega
      subst this
      rw [recursive_select_singleton]
      rfl
    | x :: y :: rest =>
      rw [bitsOf, recursive_select_step]
      have hlen2 : (selectLevel (i % 2) (x :: y :: rest)).length ≤ 2 ^ h := by
        rw [selectLevel_length]
        rw [pow_succ] at hlen
        simp only [List.length_cons] at hlen ⊢
        omega
      have hi2 : i / 2 < (selectLevel (i % 2) (x :: y :: rest)).length := by
        rw [selectLevel_length]
        simp only [List.length_cons] at hi ⊢
        omega
      rw [ih _ _ hlen2 hi2, selectLevel_get? (i % 2) _ (i / 2)]
      by_cases hin : 2 * (i / 2) + 1 < (x :: y :: rest).length
      · rw [if_pos hin]
        by_cases hodd : i % 2 = 0
        · rw [if_neg (by simp [hodd]), show 2 * (i / 2) = i by omega]
        · rw [if_pos hodd, show 2 * (i / 2) + 1 = i by omega]
      · rw [if_neg hin]
        have hodd : i % 2 = 0 := by
          rcases Nat.mod_two_eq_zero_or_one i with h0 | h1
          · exact h0
          · exfalso
            apply hin
            have h2i : 2 * (i / 2) + 1 = i := by omega
            rw [h2i]
            exact hi
        have h2i : 2 * (i / 2) = i := by omega
        rw [if_pos (by rw [h2i]; exact hi), h2i]

/-! ### The gadget library of ConstrainingFrOperations

Value semantics of the scalar gadgets in
zinc/src/primitive/constrained/mod.rs.  The prime modulus is p and C is
the capacity of the field (the number of bits below the modulus,
E::Fr::CAPACITY), so 2 ^ C <= p < 2 ^ (C + 1). -/

section Gadgets

variable (p : ℕ) (C : ℕ)

/-- Value of the sub gadget: the diff constraint (l - r) * 1 = diff. -/
def sub (a b : ZMod p) : ZMod p := a - b

/-- Value of the add gadget: the sum constraint (l + r) * 1 = sum. -/
def add (a b : ZMod p) : ZMod p := a + b

/-- Value of the mul gadget: the prod constraint l * r = prod. -/
def mul (a b : ZMod p) : ZMod p := a * b

/-- Value of the neg gadget: element + neg = 0. -/
def neg (a : ZMod p) : ZMod p := -a

/-- Value of the not gadget: sub(one, element). -/
def not (a : ZMod p) : ZMod p := sub p 1 a

/-- Value of the AllocatedNum equals gadget used by eq: 1 if the two
field elements coincide, 0 otherwise. -/
def eq (a b : ZMod p) : ZMod p := if a = b then 1 else 0

/-- pack_bits_to_element applied to the low (CAPACITY - 1) bits of the
full little-endian decomposition of d, as le does. -/
def pack_low_bits (d : ZMod p) : ZMod p := (packBits (bitsOf d.val (C - 1)) : ZMod p)

/-- Value of the le gadget: d = right - left is decomposed into bits,
the low (CAPACITY - 1) bits are repacked, and the result is the equality
test of d with the repacked value. -/
def le (a b : ZMod p) : ZMod p :=
  eq p (sub p b a) (pack_low_bits p C (sub p b a))

/-- lt(a, b) = le(a, b - 1). -/
def lt (a b : ZMod p) : ZMod p := le p C a (sub p b 1)

/-- ne(a, b) = not(eq(a, b)). -/
def ne (a b : ZMod p) : ZMod p := not p (eq p a b)

/-- ge(a, b) = not(lt(a, b)). -/
def ge (a b : ZMod p) : ZMod p := not p (lt p C a b)

/-- gt(a, b) = not(le(a, b)). -/
def gt (a b : ZMod p) : ZMod p := not p (le p C a b)

/-- Value of conditional_select: if_true when the condition is nonzero,
if_false otherwise. -/
def conditional_select (c t f : ZMod p) : ZMod p := if c ≠ 0 then t else f

/-- The single constraint emitted by conditional_select:
(t - f) * c = s - f, where s is the allocated result. -/
@[reducible] def select_constraint (c t f s : ZMod p) : Prop := (t - f) * c = s - f

/-- abs, as computed by div_rem: select the negation when the value is
lt zero. -/
def abs (a : ZMod p) : ZMod p :=
  conditional_select p (lt p C a 0) (neg p a) a

/-- The inverse witness allocated by the assert gadget:
fr.inverse().unwrap_or(zero). -/
def assert_inverse (a : ZMod p) : ZMod p := if a = 0 then 0 else a⁻¹

/-- The constraint enforced by the assert gadget: element * inverse = 1. -/
@[reducible] def assert_constraint (a w : ZMod p) : Prop := a * w = 1

/-- Satisfiability of the assert gadget constraint: some assignment of
the free inverse variable makes element * inverse = 1 hold. -/
@[reducible] def assert_constraint_sat (a : ZMod p) : Prop := ∃ w, assert_constraint p a w

/-- Modelled from the spec: utils::euclidean_div_rem is not under src/.
Euclidean division of integers: the quotient q and remainder r satisfy
a = q * b + r and 0 <= r < abs b. -/
def euclidean_div_rem (a b : ℤ) : ℤ × ℤ := (Int.ediv a b, Int.emod a b)

/-- Modelled from the spec: utils::fr_to_bigint is not under src/.  A
field element is read back as its canonical nonnegative representative. -/
def fr_to_bigint (a : ZMod p) : ℤ := (a.val : ℤ)

/-- Value semantics of div_rem: the witnessed quotient and remainder are
computed by euclidean_div_rem on the operand values. -/
def div_rem (a b : ZMod p) : ZMod p × ZMod p :=
  let qr := euclidean_div_rem (fr_to_bigint p a) (fr_to_bigint p b)
  ((qr.1 : ZMod p), (qr.2 : ZMod p))

/-- The top-level constraints emitted by div_rem on the free quotient
and remainder variables, with every internal gadget wire assigned its
gadget-determined value: the product identity
quotient * denominator = nominator - remainder, and the final enforce
labelled "0 <= rem < |denominator|", which is
(1 - lt(rem, abs denom)) * (1 - ge(rem, 0)) = 0. -/
@[reducible] def div_rem_constraints (a b q r : ZMod p) : Prop :=
  q * b = a - r ∧
  (1 - lt p C r (abs p C b)) * (1 - ge p C r 0) = 0

/-- Modelled from the spec: utils::tree_height is not under src/.  The
number of index bits used by the fast array access is ceil(log2 n). -/
def tree_height (n : ℕ) : ℕ := Nat.clog 2 n

/-- Value of the bits gadget: the index is decomposed into the
tree_height(array_length) little-endian bits.  The in-circuit assertion
index < length that bits emits first is assert_constraint_sat of
lt(index, length). -/
def bits (index : ZMod p) (array_length : ℕ) : List ℕ :=
  bitsOf index.val (tree_height array_length)

/-- Value of array_get: decompose the index into bits and run the
recursive 2-to-1 selection. -/
def array_get (arr : List (ZMod p)) (index : ZMod p) : Option (ZMod p) :=
  recursive_select (bits p index arr.length) arr

end Gadgets

/-! ### The zinc-vm execution layer used by the library calls -/

/-- The error kinds surfaced by the modelled zinc-vm fragments.  The
constructors collapse the corresponding Rust error variants
(RuntimeError::OnlyForContracts, RuntimeError::InvalidStorageValue,
MalformedBytecode::InvalidArguments wrapped into RuntimeError, stack
underflow / non-value cell errors, and the assertion failure). -/
inductive RuntimeError where
  | OnlyForContracts
  | InvalidStorageValue
  | StackUnderflow
  | ExpectedValue
  | AssertionFailed
  | MalformedBytecode
deriving DecidableEq, Repr

/-- An evaluation-stack cell: a scalar value or a data-stack address. -/
inductive Cell (α : Type) where
  | Value (v : α)
  | Address (a : ℕ)
deriving DecidableEq, Repr

/-- Cell::try_into_value: only Value cells convert to scalars. -/
def tryIntoValue : Cell α → Except RuntimeError α
  | .Value v => .ok v
  | .Address _ => .error .ExpectedValue

/-- Pop n scalar values off the evaluation stack, first popped first in
the returned list. -/
def popValues : ℕ → List (Cell α) → Except RuntimeError (List α × List (Cell α))
  | 0, s => .ok ([], s)
  | _ + 1, [] => .error .StackUnderflow
  | n + 1, c :: s => do
    let v ← tryIntoValue c
    let (vs, s1) ← popValues n s
    .ok (v :: vs, s1)

theorem popValues_append (l : List α) (s : List (Cell α)) :
    popValues l.length (l.map Cell.Value ++ s) = .ok (l, s) := by
  induction l with
  | nil => rfl
  | cons x l ih =>
    show (do
        let v ← tryIntoValue (Cell.Value x)
        let (vs, s1) ← popValues l.length (l.map Cell.Value ++ s)
        (.ok (v :: vs, s1) : Except RuntimeError _)) = _
    rw [ih]
    rfl

/-- Modelled from the spec: the storage leaf variants of zinc-vm (the
LeafVariant enum is not under src/): an Array leaf is a flat vector of
scalars, a Map leaf stores (key_vec, value_vec) entries. -/
inductive LeafVariant (α : Type) where
  | Array (vals : List α)
  | Map (data : List (List α × List α))

/-- Scalar::new_constant_bool: the constant Boolean scalar 1 or 0. -/
def boolScalar (p : ℕ) (b : Bool) : ZMod p := if b then 1 else 0

/-- AllocatedNum::pack_bits_to_element at the level of values: the
field element with the given little-endian bit values. -/
def packField (p : ℕ) (l : List (ZMod p)) : ZMod p :=
  l.foldr (fun b acc => b + 2 * acc) 0

theorem packField_map_cast (p : ℕ) (l : List ℕ) :
    packField p (l.map (Nat.cast)) = (packBits l : ZMod p) := by
  induction l with
  | nil => simp [packField, packBits]
  | cons b l ih =>
    show (b : ZMod p) + 2 * packField p (l.map (Nat.cast)) = _
    rw [ih, packBits_cons]
    push_cast
    ring

/-- The MTreeMap contains library call (Contains::call): requires
attached contract storage, pops the key scalars (reversing them into
declaration order), pops the leaf index, loads the leaf — which must be
a Map leaf — and pushes the constant Boolean saying whether some stored
entry has exactly the queried key.  Storage is modelled as the total
load map from leaf indices to leaf contents. -/
def contains (p : ℕ) (input_size : ℕ) (stack : List (Cell (ZMod p)))
    (storage : Option (ℤ → LeafVariant (ZMod p))) :
    Except RuntimeError (List (Cell (ZMod p))) :=
  match storage with
  | none => .error .OnlyForContracts
  | some store =>
    match popValues input_size stack with
    | .error e => .error e
    | .ok (input_rev, s1) =>
      match s1 with
      | [] => .error .StackUnderflow
      | c :: s2 =>
        match tryIntoValue c with
        | .error e => .error e
        | .ok index =>
          match store (fr_to_bigint p index) with
          | .Array _ => .error .InvalidStorageValue
          | .Map data =>
            .ok (.Value (boolScalar p
              (data.any fun e => decide (e.1 = input_rev.reverse))) :: s2)

/-- VerifySchnorrSignature::new: at least 6 arguments are required, and
the message length is the argument count minus the 5 signature and key
scalars. -/
def schnorr_verify_new (args_count : ℕ) : Except RuntimeError ℕ :=
  if args_count < 6 then .error .MalformedBytecode
  else .ok (args_count - 5)

/-- VerifySchnorrSignature::execute: fails when the message bit length
exceeds the capacity of the embedded scalar field (E::Fs::CAPACITY,
passed here as fsCapacity); otherwise pops the message bits and the
five scalars r_x, r_y, s, pk_x, pk_y (in reverse push order) and pushes
the Boolean result of the curve verification gadget, which is external
to the repository and is modelled as the function verify. -/
def schnorr_verify_execute (p : ℕ) (fsCapacity : ℕ)
    (verify : List (ZMod p) → ZMod p → ZMod p → ZMod p → ZMod p → ZMod p → Bool)
    (msg_len : ℕ) (stack : List (Cell (ZMod p))) :
    Except RuntimeError (List (Cell (ZMod p))) :=
  if fsCapacity < msg_len then .error .MalformedBytecode
  else
    match popValues msg_len stack with
    | .error e => .error e
    | .ok (message, s1) =>
      match popValues 5 s1 with
      | .error e => .error e
      | .ok (rest5, s2) =>
        match rest5 with
        | [pk_y, pk_x, s, r_y, r_x] =>
          .ok (.Value (boolScalar p (verify message r_x r_y s pk_x pk_y)) :: s2)
        | _ => .error .StackUnderflow

/-- SignedFromBits::call, at the level of values: requires the
bit length to be strictly below the field capacity (fed as cap =
E::Fr::CAPACITY), reads the sign bit bits[bitlength - 1], packs the
bits together with the negated sign bit appended, and subtracts
2 ^ bitlength.  The stack fragment holding the popped bits is passed as
the list bits (first popped first). -/
def from_bits_signed (p : ℕ) (cap : ℕ) (bits : List (ZMod p)) :
    Except RuntimeError (ZMod p) :=
  if cap ≤ bits.length then .error .MalformedBytecode
  else
    .ok (packField p (bits ++ [1 - bits.getD (bits.length - 1) 0])
      - (2 ^ bits.length : ZMod p))

/-- Modelled from the spec: std::convert::to_bits for signed integers is
not under src/.  It adds 2 ^ (n - 1) to the value, emits the n
little-endian bits, and flips the sign (top) bit. -/
def to_bits_signed (n : ℕ) (v : ℤ) : List ℕ :=
  let shifted := (v + 2 ^ (n - 1)).toNat
  bitsOf shifted (n - 1) ++ [1 - shifted / 2 ^ (n - 1) % 2]

/-- Modelled from the spec: the VM Assert instruction handler is not
under src/.  Per the dispatcher description and scenario S4, executing
an assertion with a false (zero) operand yields a RuntimeError
assertion failure, and a true operand succeeds. -/
def assert_instruction (p : ℕ) (v : ZMod p) : Except RuntimeError Unit :=
  if v = 0 then .error .AssertionFailed else .ok ()

/-! ### The zrust-bytecode instruction decoder -/

/-- The InstructionCode enum of zrust-bytecode, in declaration order. -/
inductive InstructionCode where
  | NoOperation
  | Pop
  | Push
  | Copy
  | Add
  | Sub
  | Mul
  | Div
  | Rem
  | Neg
  | Not
  | And
  | Or
  | Xor
  | Lt
  | Le
  | Eq
  | Ne
  | Ge
  | Gt
  | Cast
  | ConditionalSelect
  | LoopBegin
  | LoopEnd
  | Call
  | Return
  | Assert
  | PushCondition
  | PopCondition
  | Exit
deriving DecidableEq, Repr

/-- The fixed byte code of each instruction: the discriminant the Rust
enum assigns in declaration order (InstructionCode::X as u8). -/
def codeOf : InstructionCode → ℕ
  | .NoOperation => 0
  | .Pop => 1
  | .Push => 2
  | .Copy => 3
  | .Add => 4
  | .Sub => 5
  | .Mul => 6
  | .Div => 7
  | .Rem => 8
  | .Neg => 9
  | .Not => 10
  | .And => 11
  | .Or => 12
  | .Xor => 13
  | .Lt => 14
  | .Le => 15
  | .Eq => 16
  | .Ne => 17
  | .Ge => 18
  | .Gt => 19
  | .Cast => 20
  | .ConditionalSelect => 21
  | .LoopBegin => 22
  | .LoopEnd => 23
  | .Call => 24
  | .Return => 25
  | .Assert => 26
  | .PushCondition => 27
  | .PopCondition => 28
  | .Exit => 29

/-- The decoding errors of zrust-bytecode. -/
inductive DecodingError where
  | UnexpectedEOF
  | UnknownInstructionCode (code : ℕ)
  | ConstantTooLong
deriving DecidableEq, Repr

/-- decode_instruction: an empty slice is an unexpected EOF; otherwise
the first byte is compared, in the source's match order, with the codes
of NoOperation, Push, Pop, Copy, Add .. Assert and the matching
instruction's own decoder (dec, whose per-instruction payload parsing
lives outside this crate's dispatcher) is run on the whole slice; any
other first byte — including the codes of PushCondition, PopCondition
and Exit — is an unknown instruction code. -/
def decode_instruction
    (dec : InstructionCode → List ℕ → Except DecodingError (Instr × ℕ)) :
    List ℕ → Except DecodingError (Instr × ℕ)
  | [] => .error .UnexpectedEOF
  | b :: rest =>
    if b = codeOf .NoOperation then dec .NoOperation (b :: rest)
    else if b = codeOf .Push then dec .Push (b :: rest)
    else if b = codeOf .Pop then dec .Pop (b :: rest)
    else if b = codeOf .Copy then dec .Copy (b :: rest)
    else if b = codeOf .Add then dec .Add (b :: rest)
    else if b = codeOf .Sub then dec .Sub (b :: rest)
    else if b = codeOf .Mul then dec .Mul (b :: rest)
    else if b = codeOf .Div then dec .Div (b :: rest)
    else if b = codeOf .Rem then dec .Rem (b :: rest)
    else if b = codeOf .Neg then dec .Neg (b :: rest)
    else if b = codeOf .Not then dec .Not (b :: rest)
    else if b = codeOf .And then dec .And (b :: rest)
    else if b = codeOf .Or then dec .Or (b :: rest)
    else if b = codeOf .Xor then dec .Xor (b :: rest)
    else if b = codeOf .Lt then dec .Lt (b :: rest)
    else if b = codeOf .Le then dec .Le (b :: rest)
    else if b = codeOf .Eq then dec .Eq (b :: rest)
    else if b = codeOf .Ne then dec .Ne (b :: rest)
    else if b = codeOf .Ge then dec .Ge (b :: rest)
    else if b = codeOf .Gt then dec .Gt (b :: rest)
    else if b = codeOf .Cast then dec .Cast (b :: rest)
    else if b = codeOf .ConditionalSelect then dec .ConditionalSelect (b :: rest)
    else if b = codeOf .LoopBegin then dec .LoopBegin (b :: rest)
    else if b = codeOf .LoopEnd then dec .LoopEnd (b :: rest)
    else if b = codeOf .Call then dec .Call (b :: rest)
    else if b = codeOf .Return then dec .Return (b :: rest)
    else if b = codeOf .Assert then dec .Assert (b :: rest)
    else .error (.UnknownInstructionCode b)

/-- The loop body of decode_all_instructions: decode at the current
offset, stop with the error on failure, otherwise advance by the
consumed length.  The fuel argument bounds the number of iterations
(the source's loop makes progress whenever each decoded instruction
consumes at least one byte). -/
def decode_all_go
    (dec : InstructionCode → List ℕ → Except DecodingError (Instr × ℕ)) :
    ℕ → List ℕ → Except DecodingError (List Instr)
  | _, [] => .ok []
  | 0, _ :: _ => .ok []
  | fuel + 1, b :: rest =>
    match decode_instruction dec (b :: rest) with
    | .error e => .error e
    | .ok (instr, len) =>
      (decode_all_go dec fuel ((b :: rest).drop len)).map (instr :: ·)

/-- decode_all_instructions: run the decoding loop over the whole byte
slice. -/
def decode_all_instructions
    (dec : InstructionCode → List ℕ → Except DecodingError (Instr × ℕ))
    (bytes : List ℕ) : Except DecodingError (List Instr) :=
  decode_all_go dec bytes.length bytes

/-- A trivial per-instruction decoder (every instruction is a unit
consuming one byte), used to exercise the dispatcher on concrete
inputs. -/
def unitDecoder : InstructionCode → List ℕ → Except DecodingError (Unit × ℕ) :=
  fun _ _ => .ok ((), 1)

/-! ### Helper lemmas about the comparison and assert gadgets -/

/-- The le gadget outputs 1 exactly when the canonical representative of
the difference fits in (CAPACITY - 1) bits. -/
theorem le_val (p C : ℕ) [NeZero p] (a b : ZMod p) :
    le p C a b = if (b - a).val < 2 ^ (C - 1) then 1 else 0 := by
  show eq p (b - a) (pack_low_bits p C (b - a)) = _
  unfold eq pack_low_bits
  rw [packBits_bitsOf]
  by_cases h : (b - a).val < 2 ^ (C - 1)
  · rw [Nat.mod_eq_of_lt h, if_pos (ZMod.natCast_rightInverse (b - a)).symm, if_pos h]
  · rw [if_neg h, if_neg ?_]
    intro heq
    apply h
    have hval : (b - a).val = (b - a).val % 2 ^ (C - 1) := by
      have hlt : (b - a).val % 2 ^ (C - 1) < p :=
        lt_of_le_of_lt (Nat.mod_le _ _) (ZMod.val_lt _)
      calc (b - a).val = (((b - a).val % 2 ^ (C - 1) : ℕ) : ZMod p).val := by rw [← heq]
        _ = (b - a).val % 2 ^ (C - 1) := ZMod.val_cast_of_lt hlt
    rw [hval]
    exact Nat.mod_lt _ (Nat.pos_pow_of_pos _ (by norm_num))

/-- On operands cast from naturals inside the safe range, the le gadget
decides exactly the natural order. -/
theorem le_natCast (p C : ℕ) [Fact (Nat.Prime p)] (x y : ℕ)
    (hC : 1 ≤ C) (hp : 2 ^ C ≤ p)
    (hx : x < 2 ^ (C - 1)) (hy : y < 2 ^ (C - 1)) :
    le p C ((x : ZMod p)) ((y : ZMod p)) = if x ≤ y then 1 else 0 := by
  have hCm : 2 * 2 ^ (C - 1) ≤ p := by
    calc 2 * 2 ^ (C - 1) = 2 ^ (C - 1 + 1) := by rw [pow_succ]; ring
    _ = 2 ^ C := by congr 1; omega
    _ ≤ p := hp
  rw [le_val]
  by_cases hxy : x ≤ y
  · rw [if_pos hxy]
    have hcast : ((y : ZMod p)) - ((x : ZMod p)) = ((y - x : ℕ) : ZMod p) := by
      rw [Nat.cast_sub hxy]
    rw [hcast, ZMod.val_cast_of_lt (by omega), if_pos (by omega)]
  · rw [if_neg hxy]
    push_neg at hxy
    have hk : 0 < x - y ∧ x - y < p := by omega
    have hcast : ((y : ZMod p)) - ((x : ZMod p)) = -((x - y : ℕ) : ZMod p) := by
      rw [Nat.cast_sub (le_of_lt hxy)]
      ring
    rw [hcast, if_neg ?_]
    have hvk : (((x - y : ℕ) : ZMod p)).val = x - y := ZMod.val_cast_of_lt hk.2
    have hnz : ((x - y : ℕ) : ZMod p) ≠ 0 := by
      intro h0
      have : (((x - y : ℕ) : ZMod p)).val = 0 := by rw [h0, ZMod.val_zero]
      omega
    rw [ZMod.neg_val, if_neg hnz, hvk]
    omega

/-- The assert constraint element * inverse = 1 has a satisfying
assignment of its free inverse variable exactly when the element is
nonzero. -/
theorem assert_sat_iff (p : ℕ) [Fact (Nat.Prime p)] (v : ZMod p) :
    assert_constraint_sat p v ↔ v ≠ 0 := by
  constructor
  · rintro ⟨w, hw⟩ h0
    have hw1 : v * w = 1 := hw
    rw [h0, zero_mul] at hw1
    exact zero_ne_one hw1
  · intro hv
    exact ⟨v⁻¹, mul_inv_cancel₀ hv⟩

/-! ### The claims -/

instance : Fact (Nat.Prime 11) := ⟨by norm_num⟩

/-- C10: for all scalars a and b, the comparison gadgets satisfy
ne(a, b) = not(eq(a, b)), ge(a, b) = not(lt(a, b)),
gt(a, b) = not(le(a, b)) and lt(a, b) = le(a, b - 1), where
not(x) = 1 - x; in particular not(not(x)) = x for every Boolean x (the
involution in fact holds for every scalar x). -/
theorem comparison_derived_identities (p C : ℕ) (a b x : ZMod p) :
    ne p a b = not p (eq p a b)
    ∧ ge p C a b = not p (lt p C a b)
    ∧ gt p C a b = not p (le p C a b)
    ∧ lt p C a b = le p C a (sub p b 1)
    ∧ not p (not p x) = x := by
  refine ⟨rfl, rfl, rfl, rfl, ?_⟩
  show (1 : ZMod p) - (1 - x) = x
  ring

/-- C2: for a Boolean condition c, conditional_select(c, t, f) emits
exactly the constraint (t - f) * c = s - f, its returned value is t
when c is true and f when c is false, that single constraint already
pins the result to this value, and consequently a gated write yields
the new value iff the condition holds, in either branch order. -/
theorem conditional_select_correct (p : ℕ) [Fact (Nat.Prime p)]
    (c t f a b old : ZMod p) (hc : c = 0 ∨ c = 1) :
    select_constraint p c t f (conditional_select p c t f)
    ∧ conditional_select p c t f = (if c = 1 then t else f)
    ∧ (∀ s, select_constraint p c t f s → s = conditional_select p c t f)
    ∧ conditional_select p (not p c) b (conditional_select p c a old)
        = (if c = 1 then a else b)
    ∧ conditional_select p c a (conditional_select p (not p c) b old)
        = (if c = 1 then a else b) := by
  have h10 : (1 : ZMod p) ≠ 0 := one_ne_zero
  have hnot0 : not p (0 : ZMod p) = 1 := by show (1 : ZMod p) - 0 = 1; ring
  have hnot1 : not p (1 : ZMod p) = 0 := by show (1 : ZMod p) - 1 = 0; ring
  rcases hc with rfl | rfl
  · refine ⟨?_, ?_, ?_, ?_, ?_⟩
    · show (t - f) * 0 = conditional_select p 0 t f - f
      simp [conditional_select]
    · simp [conditional_select, zero_ne_one (α := ZMod p)]
    · intro s hs
      have hs0 : s - f = 0 := by
        have : (t - f) * 0 = s - f := hs
        rw [mul_zero] at this
        exact this.symm
      have : s = f := by
        have := sub_eq_zero.mp hs0
        exact this
      simp [conditional_select, this]
    · rw [hnot0]
      simp [conditional_select, h10, zero_ne_one (α := ZMod p)]
    · simp [conditional_select, hnot0, h10, zero_ne_one (α := ZMod p)]
  · refine ⟨?_, ?_, ?_, ?_, ?_⟩
    · show (t - f) * 1 = conditional_select p 1 t f - f
      simp [conditional_select, h10]
    · simp [conditional_select, h10]
    · intro s hs
      have hs1 : t - f = s - f := by
        have : (t - f) * 1 = s - f := hs
        rw [mul_one] at this
        exact this
      have : s = t := (sub_left_inj.mp hs1).symm
      simp [conditional_select, this, h10]
    · rw [hnot1]
      simp [conditional_select, h10]
    · simp [conditional_select, hnot1, h10]

/-- Witness for C2 at p = 11, c = 1 and c = 0. -/
theorem conditional_select_correct_witness :
    (select_constraint 11 1 5 7 (conditional_select 11 1 5 7)
      ∧ conditional_select 11 1 5 7 = (if (1 : ZMod 11) = 1 then 5 else 7)
      ∧ (∀ s, select_constraint 11 1 5 7 s → s = conditional_select 11 1 5 7)
      ∧ conditional_select 11 (not 11 1) 9 (conditional_select 11 1 8 2)
          = (if (1 : ZMod 11) = 1 then 8 else 9)
      ∧ conditional_select 11 1 8 (conditional_select 11 (not 11 1) 9 2)
          = (if (1 : ZMod 11) = 1 then 8 else 9))
    ∧ (select_constraint 11 0 5 7 (conditional_select 11 0 5 7)
      ∧ conditional_select 11 0 5 7 = (if (0 : ZMod 11) = 1 then 5 else 7)
      ∧ (∀ s, select_constraint 11 0 5 7 s → s = conditional_select 11 0 5 7)
      ∧ conditional_select 11 (not 11 0) 9 (conditional_select 11 0 8 2)
          = (if (0 : ZMod 11) = 1 then 8 else 9)
      ∧ conditional_select 11 0 8 (conditional_select 11 (not 11 0) 9 2)
          = (if (0 : ZMod 11) = 1 then 8 else 9)) :=
  ⟨conditional_select_correct 11 1 5 7 8 9 2 (Or.inr rfl),
   conditional_select_correct 11 0 5 7 8 9 2 (Or.inl rfl)⟩

/-- C5: the assert gadget enforces element * inverse = 1 on a free
inverse variable, which is satisfiable exactly when the element is
nonzero (so synthesis fails at zero), the witnessed inverse satisfies
the constraint for nonzero elements, and executing an assertion on a
false operand yields a RuntimeError assertion failure while a true
operand succeeds. -/
theorem assert_correct (p : ℕ) [Fact (Nat.Prime p)] (v : ZMod p) :
    (assert_constraint_sat p v ↔ v ≠ 0)
    ∧ (v ≠ 0 → assert_constraint p v (assert_inverse p v))
    ∧ (v = 0 → assert_instruction p v = .error .AssertionFailed)
    ∧ (v ≠ 0 → assert_instruction p v = .ok ()) := by
  refine ⟨assert_sat_iff p v, ?_, ?_, ?_⟩
  · intro hv
    show v * assert_inverse p v = 1
    unfold assert_inverse
    rw [if_neg hv]
    exact mul_inv_cancel₀ hv
  · intro h0
    simp [assert_instruction, h0]
  · intro hv
    simp [assert_instruction, hv]

/-- Witness for C5 at p = 11, v = 5 and v = 0. -/
theorem assert_correct_witness :
    ((assert_constraint_sat 11 (5 : ZMod 11) ↔ (5 : ZMod 11) ≠ 0)
      ∧ ((5 : ZMod 11) ≠ 0 → assert_constraint 11 (5 : ZMod 11) (assert_inverse 11 5))
      ∧ ((5 : ZMod 11) = 0 → assert_instruction 11 (5 : ZMod 11) = .error .AssertionFailed)
      ∧ ((5 : ZMod 11) ≠ 0 → assert_instruction 11 (5 : ZMod 11) = .ok ()))
    ∧ ((0 : ZMod 11) = 0 → assert_instruction 11 (0 : ZMod 11) = .error .AssertionFailed) :=
  ⟨assert_correct 11 5, (assert_correct 11 0).2.2.1⟩

/-- C4: le(a, b) computes d = b - a, decomposes d into bits, repacks the
low (field_capacity - 1) bits, and returns the Boolean equality test of
d with the repacked value (this is the definition of le); for operands
inside the safe integer range this Boolean is 1 exactly when a <= b. -/
theorem le_correct (p C : ℕ) [Fact (Nat.Prime p)] (x y : ℕ)
    (hC : 1 ≤ C) (hp : 2 ^ C ≤ p)
    (hx : x < 2 ^ (C - 1)) (hy : y < 2 ^ (C - 1)) :
    le p C ((x : ZMod p)) ((y : ZMod p))
        = eq p (sub p ((y : ZMod p)) ((x : ZMod p)))
            (pack_low_bits p C (sub p ((y : ZMod p)) ((x : ZMod p))))
    ∧ le p C ((x : ZMod p)) ((y : ZMod p)) = if x ≤ y then 1 else 0 :=
  ⟨rfl, le_natCast p C x y hC hp hx hy⟩

/-- Witness for C4 at p = 11, C = 3, x = 2, y = 3 and x = 3, y = 2. -/
theorem le_correct_witness :
    le 11 3 ((2 : ℕ) : ZMod 11) ((3 : ℕ) : ZMod 11)
        = (if (2 : ℕ) ≤ 3 then 1 else 0 : ZMod 11)
    ∧ le 11 3 ((3 : ℕ) : ZMod 11) ((2 : ℕ) : ZMod 11)
        = (if (3 : ℕ) ≤ 2 then 1 else 0 : ZMod 11) :=
  ⟨(le_correct 11 3 2 3 (by norm_num) (by norm_num) (by norm_num) (by norm_num)).2,
   (le_correct 11 3 3 2 (by norm_num) (by norm_num) (by norm_num) (by norm_num)).2⟩

/-- C3: array_get first emits the in-circuit assertion index < length
(the assert constraint on lt(index, length) is satisfiable for an
in-range index and unsatisfiable for an out-of-range index in the safe
comparison range), decomposes the index into the ceil(log2 n)
little-endian bits and runs the recursive halving selection, and for
every concrete index i < n the result is exactly element i of the
array. -/
theorem array_get_correct (p C : ℕ) [Fact (Nat.Prime p)]
    (arr : List (ZMod p)) (i : ℕ) (hi : i < arr.length)
    (hC : 1 ≤ C) (hp : 2 ^ C ≤ p) (hlen : arr.length ≤ 2 ^ (C - 1)) :
    array_get p arr ((i : ZMod p)) = some (arr.get ⟨i, hi⟩)
    ∧ assert_constraint_sat p (lt p C ((i : ZMod p)) ((arr.length : ZMod p)))
    ∧ (∀ j : ℕ, arr.length ≤ j → j < 2 ^ (C - 1) →
        ¬ assert_constraint_sat p (lt p C ((j : ZMod p)) ((arr.length : ZMod p)))) := by
  have hplarge : 2 ^ (C - 1) < p := by
    have h1 : 2 ^ (C - 1) < 2 ^ C := by
      apply Nat.pow_lt_pow_right (by norm_num)
      omega
    omega
  have hsub1 : sub p ((arr.length : ZMod p)) 1 = ((arr.length - 1 : ℕ) : ZMod p) := by
    show ((arr.length : ZMod p)) - 1 = _
    rw [Nat.cast_sub (show 1 ≤ arr.length by omega), Nat.cast_one]
  refine ⟨?_, ?_, ?_⟩
  · have hval : ((i : ZMod p)).val = i := ZMod.val_cast_of_lt (by omega)
    have hht : arr.length ≤ 2 ^ tree_height arr.length :=
      Nat.le_pow_clog (by norm_num) _
    show recursive_select (bitsOf ((i : ZMod p)).val (tree_height arr.length)) arr = _
    rw [hval, recursive_select_bitsOf _ _ _ hht hi, List.get?_eq_get hi]
  · show assert_constraint_sat p (le p C _ (sub p _ 1))
    rw [hsub1, le_natCast p C i (arr.length - 1) hC hp (by omega) (by omega),
      if_pos (by omega)]
    rw [assert_sat_iff]
    exact one_ne_zero
  · intro j hj hjC
    show ¬ assert_constraint_sat p (le p C _ (sub p _ 1))
    rw [hsub1, le_natCast p C j (arr.length - 1) hC hp (by omega) (by omega),
      if_neg (by omega)]
    rw [assert_sat_iff]
    simp

/-- Witness for C3 at p = 11, C = 3, a three-element array and index 1,
with out-of-range index 3. -/
theorem array_get_correct_witness :
    array_get 11 [(3 : ZMod 11), 4, 5] (((1 : ℕ) : ZMod 11))
        = some ([(3 : ZMod 11), 4, 5].get ⟨1, by norm_num⟩)
    ∧ assert_constraint_sat 11
        (lt 11 3 (((1 : ℕ) : ZMod 11)) ((([(3 : ZMod 11), 4, 5].length : ℕ) : ZMod 11)))
    ∧ ¬ assert_constraint_sat 11
        (lt 11 3 (((3 : ℕ) : ZMod 11)) ((([(3 : ZMod 11), 4, 5].length : ℕ) : ZMod 11))) := by
  have h := array_get_correct 11 3 [(3 : ZMod 11), 4, 5] 1 (by norm_num)
    (by norm_num) (by norm_num) (by norm_num)
  exact ⟨h.1, h.2.1, h.2.2 3 (by norm_num) (by norm_num)⟩

/-- C1 is a code bug: the final enforce of div_rem, labelled
"0 <= rem < |denominator|", is (1 - lt) * (1 - ge) = 0, which only
requires one of the two bounds.  Over F_11 with capacity 3, for
nominator 0 and denominator 2 the honest witness is (q, r) = (0, 0),
but the adversarial assignment q = 6, r = 10 (which is -1) satisfies
every emitted constraint although the remainder 10 = -1 lies outside
[0, |2|). -/
theorem div_rem_out_of_bound_witness :
    div_rem 11 ((0 : ZMod 11)) 2 = (0, 0)
    ∧ div_rem_constraints 11 3 0 2 6 10
    ∧ abs 11 3 (2 : ZMod 11) = 2
    ∧ ¬ ((10 : ZMod 11).val < (2 : ZMod 11).val)
    ∧ fr_to_bigint 11 ((10 : ZMod 11)) = 10 := by
  refine ⟨by decide, by decide, by decide, by decide, by decide⟩

/-- C8: for every signed integer v of width n with n strictly below the
field capacity, from_bits_signed applied to the n little-endian bits of
to_bits(v) — which adds 2^(n-1), emits n bits and flips the sign bit —
returns exactly (the field encoding of) v: the gadget packs the n bits
with the negated top bit appended and subtracts 2^n; for bitlength at
or above the capacity it fails with a MalformedBytecode error. -/
theorem from_bits_signed_round_trip (p cap n : ℕ) [Fact (Nat.Prime p)] (v : ℤ)
    (hn : 1 ≤ n) (hcap : n < cap)
    (hlo : -(2 ^ (n - 1) : ℤ) ≤ v) (hhi : v < (2 ^ (n - 1) : ℤ)) :
    from_bits_signed p cap ((to_bits_signed n v).map (Nat.cast : ℕ → ZMod p))
        = .ok ((v : ZMod p))
    ∧ (∀ bits : List (ZMod p), cap ≤ bits.length →
        from_bits_signed p cap bits = .error .MalformedBytecode) := by
  refine ⟨?_, ?_⟩
  swap
  · intro bits hlen
    unfold from_bits_signed
    rw [if_pos hlen]
  have hmZ : ((2 ^ (n - 1) : ℕ) : ℤ) = (2 ^ (n - 1) : ℤ) := by push_cast; rfl
  have hw : (((v + (2 : ℤ) ^ (n - 1)).toNat : ℕ) : ℤ) = v + 2 ^ (n - 1) :=
    Int.toNat_of_nonneg (by linarith)
  generalize hwdef : (v + (2 : ℤ) ^ (n - 1)).toNat = w at hw
  have hw2m : w < 2 * 2 ^ (n - 1) := by
    have h1 : (w : ℤ) < 2 * (2 ^ (n - 1) : ℕ) := by
      rw [hw, hmZ]
      linarith
    exact_mod_cast h1
  have hm0 : 0 < 2 ^ (n - 1) := pow_pos (by norm_num) _
  have hq : w / 2 ^ (n - 1) ≤ 1 := by
    have := (Nat.div_lt_iff_lt_mul hm0).mpr (by omega : w < 2 * 2 ^ (n - 1))
    omega
  have hqm : w / 2 ^ (n - 1) % 2 = w / 2 ^ (n - 1) := Nat.mod_eq_of_lt (by omega)
  have hunfold : to_bits_signed n v = bitsOf w (n - 1) ++ [1 - w / 2 ^ (n - 1) % 2] := by
    unfold to_bits_signed
    rw [hwdef]
  have happ : (to_bits_signed n v).map (Nat.cast : ℕ → ZMod p)
      = (bitsOf w (n - 1)).map (Nat.cast : ℕ → ZMod p)
        ++ [((1 - w / 2 ^ (n - 1) % 2 : ℕ) : ZMod p)] := by
    rw [hunfold, List.map_append]
    rfl
  have hlen : ((to_bits_signed n v).map (Nat.cast : ℕ → ZMod p)).length = n := by
    rw [happ]
    simp [bitsOf_length]
    omega
  have hsign : ((to_bits_signed n v).map (Nat.cast : ℕ → ZMod p)).getD (n - 1) 0
      = ((1 - w / 2 ^ (n - 1) % 2 : ℕ) : ZMod p) := by
    rw [happ]
    have hplen : n - 1 = ((bitsOf w (n - 1)).map (Nat.cast : ℕ → ZMod p)).length := by
      simp [bitsOf_length]
    nth_rewrite 3 [hplen]
    rw [getD_concat_length]
  have hq1 : w / 2 ^ (n - 1) % 2 ≤ 1 := by omega
  have hflip : (1 : ZMod p) - ((1 - w / 2 ^ (n - 1) % 2 : ℕ) : ZMod p)
      = ((w / 2 ^ (n - 1) % 2 : ℕ) : ZMod p) := by
    rw [Nat.cast_sub hq1]
    push_cast
    ring
  have hmap1 : (to_bits_signed n v).map (Nat.cast : ℕ → ZMod p)
        ++ [((w / 2 ^ (n - 1) % 2 : ℕ) : ZMod p)]
      = ((to_bits_signed n v ++ [w / 2 ^ (n - 1) % 2]).map (Nat.cast : ℕ → ZMod p)) := by
    rw [List.map_append]
    rfl
  have hpack : packBits (to_bits_signed n v ++ [w / 2 ^ (n - 1) % 2]) = w + 2 ^ (n - 1) := by
    rw [hunfold, packBits_concat, packBits_concat, packBits_bitsOf, bitsOf_length]
    simp only [List.length_append, bitsOf_length, List.length_cons, List.length_nil]
    rw [hqm]
    have hdm := Nat.div_add_mod w (2 ^ (n - 1))
    have hpow : 2 ^ (n - 1 + 1) = 2 ^ (n - 1) * 2 := by rw [pow_succ]
    rcases Nat.le_one_iff_eq_zero_or_eq_one.mp hq with h0 | h1
    · rw [h0] at hdm ⊢
      rw [hpow] at *
      omega
    · rw [h1] at hdm ⊢
      rw [hpow] at *
      omega
  unfold from_bits_signed
  rw [hlen, if_neg (by omega), hsign, hflip, hmap1, packField_map_cast, hpack]
  simp only [Except.ok.injEq]
  have hv' : v = (w : ℤ) - ((2 ^ (n - 1) : ℕ) : ℤ) := by
    rw [hmZ]
    linarith [hw]
  have hcast : (v : ZMod p) = (w : ZMod p) - ((2 ^ (n - 1) : ℕ) : ZMod p) := by
    rw [hv']
    push_cast
    ring
  rw [hcast]
  have hpow2 : (2 : ZMod p) ^ n = ((2 ^ (n - 1) : ℕ) : ZMod p) * 2 := by
    rw [show n = n - 1 + 1 by omega, pow_succ]
    push_cast
    ring
  rw [hpow2]
  push_cast
  ring

/-- Witness for C8 at p = 11, n = 4, cap = 5, v = -3: the two's
complement bits of -3 are 1011 and the round trip returns -3 = 8 in
F_11; a 5-bit call fails. -/
theorem from_bits_signed_round_trip_witness :
    from_bits_signed 11 5 ((to_bits_signed 4 (-3)).map (Nat.cast : ℕ → ZMod 11))
        = .ok (((-3 : ℤ) : ZMod 11))
    ∧ from_bits_signed 11 5 [0, 0, 0, 0, (1 : ZMod 11)] = .error .MalformedBytecode :=
  ⟨(from_bits_signed_round_trip 11 5 4 (-3) (by norm_num) (by norm_num)
      (by norm_num) (by norm_num)).1,
   (from_bits_signed_round_trip 11 5 4 (-3) (by norm_num) (by norm_num)
      (by norm_num) (by norm_num)).2 [0, 0, 0, 0, (1 : ZMod 11)] (by norm_num)⟩

/-- C6: MTreeMap contains, with storage attached, pops the key scalars
and the leaf index, loads the leaf and — when it is a map leaf — pushes
the constant Boolean that is true iff some stored (key, value) entry
has exactly the queried key; an array leaf is an InvalidStorageValue
error and a missing storage is an OnlyForContracts error. -/
theorem mtreemap_contains_correct (p : ℕ) [Fact (Nat.Prime p)]
    (key : List (ZMod p)) (idx : ZMod p) (rest : List (Cell (ZMod p)))
    (store : ℤ → LeafVariant (ZMod p)) :
    (∀ data, store (fr_to_bigint p idx) = .Map data →
      contains p key.length (key.reverse.map Cell.Value ++ Cell.Value idx :: rest)
          (some store)
        = .ok (.Value (boolScalar p (data.any fun e => decide (e.1 = key))) :: rest)
      ∧ ((data.any fun e => decide (e.1 = key)) = true ↔ ∃ e ∈ data, e.1 = key))
    ∧ (∀ vals, store (fr_to_bigint p idx) = .Array vals →
      contains p key.length (key.reverse.map Cell.Value ++ Cell.Value idx :: rest)
          (some store)
        = .error .InvalidStorageValue)
    ∧ (∀ n stack, contains p n stack none = .error .OnlyForContracts) := by
  have hpop : popValues key.length (key.reverse.map Cell.Value ++ Cell.Value idx :: rest)
      = .ok (key.reverse, Cell.Value idx :: rest) := by
    rw [show key.length = key.reverse.length from (List.length_reverse key).symm]
    exact popValues_append key.reverse (Cell.Value idx :: rest)
  refine ⟨?_, ?_, ?_⟩
  · intro data hdata
    constructor
    · unfold contains
      simp only [hpop, tryIntoValue, hdata, List.reverse_reverse]
    · simp
  · intro vals hvals
    unfold contains
    simp only [hpop, tryIntoValue, hvals]
  · intro n stack
    rfl

/-- Witness for C6 at p = 11 with a two-scalar key, a map leaf holding
the key, an array leaf at another index, and detached storage. -/
theorem mtreemap_contains_correct_witness :
    contains 11 2
        ([(3 : ZMod 11), 4].reverse.map Cell.Value ++ Cell.Value 0 :: [])
        (some fun i => if i = 0 then .Map [([3, 4], [7])] else .Array [5])
      = .ok (.Value (boolScalar 11
          (([([(3 : ZMod 11), 4], [7])].any fun e => decide (e.1 = [3, 4])))) :: [])
    ∧ contains 11 2
        ([(3 : ZMod 11), 4].reverse.map Cell.Value ++ Cell.Value 1 :: [])
        (some fun i => if i = 0 then .Map [([3, 4], [7])] else .Array [5])
      = .error .InvalidStorageValue
    ∧ contains 11 2 [] none = .error .OnlyForContracts := by
  refine ⟨?_, ?_, ?_⟩
  · exact ((mtreemap_contains_correct 11 [3, 4] 0 []
      (fun i => if i = 0 then .Map [([3, 4], [7])] else .Array [5])).1
        [([3, 4], [7])] rfl).1
  · exact (mtreemap_contains_correct 11 [3, 4] 1 []
      (fun i => if i = 0 then .Map [([3, 4], [7])] else .Array [5])).2.1
        [5] rfl
  · exact (mtreemap_contains_correct 11 [] 0 []
      (fun _ => .Array [])).2.2 2 []

/-- C7: schnorr::verify construction fails with MalformedBytecode below
6 arguments and otherwise records the message length args - 5;
execution fails with MalformedBytecode when the message length exceeds
the embedded scalar field capacity, and otherwise pops the message bits
and the five signature and key scalars and pushes the Boolean produced
by the (external) curve verification gadget. -/
theorem schnorr_verify_correct (p : ℕ) [Fact (Nat.Prime p)]
    (fsCap args_count : ℕ)
    (verify : List (ZMod p) → ZMod p → ZMod p → ZMod p → ZMod p → ZMod p → Bool)
    (msg : List (ZMod p)) (r_x r_y s pk_x pk_y : ZMod p)
    (rest : List (Cell (ZMod p))) :
    (args_count < 6 → schnorr_verify_new args_count = .error .MalformedBytecode)
    ∧ (6 ≤ args_count → schnorr_verify_new args_count = .ok (args_count - 5))
    ∧ (∀ stack, fsCap < msg.length →
        schnorr_verify_execute p fsCap verify msg.length stack
          = .error .MalformedBytecode)
    ∧ (msg.length ≤ fsCap →
        schnorr_verify_execute p fsCap verify msg.length
          (msg.map Cell.Value ++ Cell.Value pk_y :: Cell.Value pk_x :: Cell.Value s
            :: Cell.Value r_y :: Cell.Value r_x :: rest)
          = .ok (.Value (boolScalar p (verify msg r_x r_y s pk_x pk_y)) :: rest)) := by
  refine ⟨?_, ?_, ?_, ?_⟩
  · intro hlt
    unfold schnorr_verify_new
    rw [if_pos hlt]
  · intro hge
    unfold schnorr_verify_new
    rw [if_neg (by omega)]
  · intro stack hlt
    unfold schnorr_verify_execute
    rw [if_pos hlt]
  · intro hle
    have hpop : popValues msg.length
        (msg.map Cell.Value ++ Cell.Value pk_y :: Cell.Value pk_x :: Cell.Value s
          :: Cell.Value r_y :: Cell.Value r_x :: rest)
        = .ok (msg, Cell.Value pk_y :: Cell.Value pk_x :: Cell.Value s
          :: Cell.Value r_y :: Cell.Value r_x :: rest) :=
      popValues_append msg _
    have hpop5 : popValues 5
        (Cell.Value pk_y :: Cell.Value pk_x :: Cell.Value s
          :: Cell.Value r_y :: Cell.Value r_x :: rest)
        = .ok ([pk_y, pk_x, s, r_y, r_x], rest) :=
      popValues_append [pk_y, pk_x, s, r_y, r_x] rest
    unfold schnorr_verify_execute
    rw [if_neg (by omega)]
    simp only [hpop, hpop5]

/-- Witness for C7 at p = 11, with a constant verification gadget. -/
theorem schnorr_verify_correct_witness :
    schnorr_verify_new 5 = .error .MalformedBytecode
    ∧ schnorr_verify_new 8 = .ok 3
    ∧ schnorr_verify_execute 11 2 (fun _ _ _ _ _ _ => true) 3 [] = .error .MalformedBytecode
    ∧ schnorr_verify_execute 11 4 (fun _ _ _ _ _ _ => true) 3
        ([(1 : ZMod 11), 0, 1].map Cell.Value ++ Cell.Value 5 :: Cell.Value 6
          :: Cell.Value 7 :: Cell.Value 8 :: Cell.Value 9 :: [])
        = .ok (.Value (boolScalar 11
            ((fun (_ : List (ZMod 11)) (_ _ _ _ _ : ZMod 11) => true) [1, 0, 1] 9 8 7 6 5)) :: []) := by
  have h5 := schnorr_verify_correct 11 2 5 (fun _ _ _ _ _ _ => true)
    [(1 : ZMod 11), 0, 1] 9 8 7 6 5 []
  have h8 := schnorr_verify_correct 11 4 8 (fun _ _ _ _ _ _ => true)
    [(1 : ZMod 11), 0, 1] 9 8 7 6 5 []
  exact ⟨h5.1 (by norm_num), h8.2.1 (by norm_num),
    h5.2.2.1 [] (by norm_num), h8.2.2.2 (by norm_num)⟩

/-- C9 counterexample: Exit has the fixed instruction code 29, but
decode_instruction does not recognize it — a byte slice starting with
Exit's code decodes to UnknownInstructionCode 29 no matter what the
per-instruction decoders do (here the trivial unit decoder, which would
happily succeed if it were dispatched). -/
theorem decode_exit_unrecognized :
    codeOf .Exit = 29
    ∧ decode_instruction unitDecoder [codeOf .Exit] = .error (.UnknownInstructionCode 29)
    ∧ unitDecoder .Exit [codeOf .Exit] = .ok ((), 1) :=
  ⟨rfl, rfl, rfl⟩

set_option maxHeartbeats 1600000 in
/-- C9 amended: decode_instruction recognizes exactly the opcodes
NoOperation .. Assert (codes 0 to 26) and dispatches the matching
instruction decoder on the whole slice; PushCondition, PopCondition and
Exit have the fixed codes 27, 28 and 29 but fall through to the default
arm, so any first byte above 26 yields UnknownInstructionCode with that
byte; an empty slice yields UnexpectedEOF; and decode_all_instructions
halts at the first failing instruction with its error, otherwise
consuming the decoded length and continuing. -/
theorem decode_instruction_amended {Instr : Type}
    (dec : InstructionCode → List ℕ → Except DecodingError (Instr × ℕ))
    (b : ℕ) (rest : List ℕ) :
    decode_instruction dec [] = .error .UnexpectedEOF
    ∧ (26 < b → decode_instruction dec (b :: rest) = .error (.UnknownInstructionCode b))
    ∧ (∀ ic : InstructionCode, codeOf ic ≤ 26 →
        decode_instruction dec (codeOf ic :: rest) = dec ic (codeOf ic :: rest))
    ∧ codeOf .PushCondition = 27 ∧ codeOf .PopCondition = 28 ∧ codeOf .Exit = 29
    ∧ (∀ bytes e, bytes ≠ [] → decode_instruction dec bytes = .error e →
        decode_all_instructions dec bytes = .error e)
    ∧ (∀ fuel bytes instr len, bytes ≠ [] →
        decode_instruction dec bytes = .ok (instr, len) →
        decode_all_go dec (fuel + 1) bytes
          = (decode_all_go dec fuel (bytes.drop len)).map (instr :: ·)) := by
  refine ⟨rfl, ?_, ?_, rfl, rfl, rfl, ?_, ?_⟩
  · intro hb
    show (if b = codeOf InstructionCode.NoOperation then dec InstructionCode.NoOperation (b :: rest)
        else if b = codeOf InstructionCode.Push then dec InstructionCode.Push (b :: rest)
        else if b = codeOf InstructionCode.Pop then dec InstructionCode.Pop (b :: rest)
        else if b = codeOf InstructionCode.Copy then dec InstructionCode.Copy (b :: rest)
        else if b = codeOf InstructionCode.Add then dec InstructionCode.Add (b :: rest)
        else if b = codeOf InstructionCode.Sub then dec InstructionCode.Sub (b :: rest)
        else if b = codeOf InstructionCode.Mul then dec InstructionCode.Mul (b :: rest)
        else if b = codeOf InstructionCode.Div then dec InstructionCode.Div (b :: rest)
        else if b = codeOf InstructionCode.Rem then dec InstructionCode.Rem (b :: rest)
        else if b = codeOf InstructionCode.Neg then dec InstructionCode.Neg (b :: rest)
        else if b = codeOf InstructionCode.Not then dec InstructionCode.Not (b :: rest)
        else if b = codeOf InstructionCode.And then dec InstructionCode.And (b :: rest)
        else if b = codeOf InstructionCode.Or then dec InstructionCode.Or (b :: rest)
        else if b = codeOf InstructionCode.Xor then dec InstructionCode.Xor (b :: rest)
        else if b = codeOf InstructionCode.Lt then dec InstructionCode.Lt (b :: rest)
        else if b = codeOf InstructionCode.Le then dec InstructionCode.Le (b :: rest)
        else if b = codeOf InstructionCode.Eq then dec InstructionCode.Eq (b :: rest)
        else if b = codeOf InstructionCode.Ne then dec InstructionCode.Ne (b :: rest)
        else if b = codeOf InstructionCode.Ge then dec InstructionCode.Ge (b :: rest)
        else if b = codeOf InstructionCode.Gt then dec InstructionCode.Gt (b :: rest)
        else if b = codeOf InstructionCode.Cast then dec InstructionCode.Cast (b :: rest)
        else if b = codeOf InstructionCode.ConditionalSelect then dec InstructionCode.ConditionalSelect (b :: rest)
        else if b = codeOf InstructionCode.LoopBegin then dec InstructionCode.LoopBegin (b :: rest)
        else if b = codeOf InstructionCode.LoopEnd then dec InstructionCode.LoopEnd (b :: rest)
        else if b = codeOf InstructionCode.Call then dec InstructionCode.Call (b :: rest)
        else if b = codeOf InstructionCode.Return then dec InstructionCode.Return (b :: rest)
        else if b = codeOf InstructionCode.Assert then dec InstructionCode.Assert (b :: rest)
        else Except.error (DecodingError.UnknownInstructionCode b))
      = Except.error (DecodingError.UnknownInstructionCode b)
    rw [if_neg (show ¬b = codeOf InstructionCode.NoOperation from by simp only [codeOf]; omega)]
    rw [if_neg (show ¬b = codeOf InstructionCode.Push from by simp only [codeOf]; omega)]
    rw [if_neg (show ¬b = codeOf InstructionCode.Pop from by simp only [codeOf]; omega)]
    rw [if_neg (show ¬b = codeOf InstructionCode.Copy from by simp only [codeOf]; omega)]
    rw [if_neg (show ¬b = codeOf InstructionCode.Add from by simp only [codeOf]; omega)]
    rw [if_neg (show ¬b = codeOf InstructionCode.Sub from by simp only [codeOf]; omega)]
    rw [if_neg (show ¬b = codeOf InstructionCode.Mul from by simp only [codeOf]; omega)]
    rw [if_neg (show ¬b = codeOf InstructionCode.Div from by simp only [codeOf]; omega)]
    rw [if_neg (show ¬b = codeOf InstructionCode.Rem from by simp only [codeOf]; omega)]
    rw [if_neg (show ¬b = codeOf InstructionCode.Neg from by simp only [codeOf]; omega)]
    rw [if_neg (show ¬b = codeOf InstructionCode.Not from by simp only [codeOf]; omega)]
    rw [if_neg (show ¬b = codeOf InstructionCode.And from by simp only [codeOf]; omega)]
    rw [if_neg (show ¬b = codeOf InstructionCode.Or from by simp only [codeOf]; omega)]
    rw [if_neg (show ¬b = codeOf InstructionCode.Xor from by simp only [codeOf]; omega)]
    rw [if_neg (show ¬b = codeOf InstructionCode.Lt from by simp only [codeOf]; omega)]
    rw [if_neg (show ¬b = codeOf InstructionCode.Le from by simp only [codeOf]; omega)]
    rw [if_neg (show ¬b = codeOf InstructionCode.Eq from by simp only [codeOf]; omega)]
    rw [if_neg (show ¬b = codeOf InstructionCode.Ne from by simp only [codeOf]; omega)]
    rw [if_neg (show ¬b = codeOf InstructionCode.Ge from by simp only [codeOf]; omega)]
    rw [if_neg (show ¬b = codeOf InstructionCode.Gt from by simp only [codeOf]; omega)]
    rw [if_neg (show ¬b = codeOf InstructionCode.Cast from by simp only [codeOf]; omega)]
    rw [if_neg (show ¬b = codeOf InstructionCode.ConditionalSelect from by simp only [codeOf]; omega)]
    rw [if_neg (show ¬b = codeOf InstructionCode.LoopBegin from by simp only [codeOf]; omega)]
    rw [if_neg (show ¬b = codeOf InstructionCode.LoopEnd from by simp only [codeOf]; omega)]
    rw [if_neg (show ¬b = codeOf InstructionCode.Call from by simp only [codeOf]; omega)]
    rw [if_neg (show ¬b = codeOf InstructionCode.Return from by simp only [codeOf]; omega)]
    rw [if_neg (show ¬b = codeOf InstructionCode.Assert from by simp only [codeOf]; omega)]
  · intro ic hic
    cases ic <;> first | rfl | (simp [codeOf] at hic)
  · intro bytes e hne hdec
    match bytes with
    | [] => exact absurd rfl hne
    | c :: cs =>
      show decode_all_go dec (cs.length + 1) (c :: cs) = _
      unfold decode_all_go
      rw [hdec]
  · intro fuel bytes instr len hne hdec
    match bytes with
    | [] => exact absurd rfl hne
    | c :: cs =>
      show (match decode_instruction dec (c :: cs) with
        | Except.error e => (Except.error e : Except DecodingError (List Instr))
        | Except.ok (instr, len) =>
          (decode_all_go dec fuel ((c :: cs).drop len)).map (instr :: ·)) = _
      rw [hdec]

set_option maxHeartbeats 1600000 in
/-- Witness for C9's amended statement on concrete bytes. -/
theorem decode_instruction_amended_witness :
    decode_instruction unitDecoder ([] : List ℕ) = .error .UnexpectedEOF
    ∧ decode_instruction unitDecoder [30] = .error (.UnknownInstructionCode 30)
    ∧ decode_instruction unitDecoder (codeOf .Add :: [9]) = unitDecoder .Add (codeOf .Add :: [9])
    ∧ decode_all_instructions unitDecoder [29, 4] = .error (.UnknownInstructionCode 29) := by
  have h := decode_instruction_amended unitDecoder 30 [9]
  exact ⟨h.1, h.2.1 (by norm_num), h.2.2.1 .Add (by decide),
    (decode_instruction_amended unitDecoder 30 []).2.2.2.2.2.2.1 [29, 4]
      (.UnknownInstructionCode 29) (by simp) rfl⟩

end Zinc
